import Mathlib

/-!
# Verification of the ascii_art animation pipeline (src/main.rs)

Shallow embedding of the program's core: the `DoubleBuffer` role state and its
two role-reassignment operations (`swap`, `temp_to_back`), the per-pixel cell
encoder, the banded frame encoder, the Policy-B frame pacer, the fatal-decode
producer loop, and an interleaving model of the two-thread ping-pong hand-off.
-/

set_option autoImplicit false

namespace AsciiArt

/-! ## Buffer Ring role state (`DoubleBuffer`, src/main.rs lines 22-75)

Pointers are modelled as `Nat` slot addresses; `0` plays the role of the null
pointer.  `DoubleBuffer::new` installs three distinct freshly allocated slots.
-/

/-- The three role pointers of `DoubleBuffer`: `front`, `back`, `temp`. -/
structure RoleState where
  front : Nat
  back : Nat
  temp : Nat
deriving DecidableEq

/-- Completed effect of `DoubleBuffer::swap` (lines 52-59): after the
load/exchange/store sequence finishes, `front` and `back` are exchanged. -/
def RoleState.swap (s : RoleState) : RoleState :=
  { s with front := s.back, back := s.front }

/-- Completed effect of `DoubleBuffer::temp_to_back` (lines 67-74): after the
load/exchange/store sequence finishes, `temp` and `back` are exchanged. -/
def RoleState.temp_to_back (s : RoleState) : RoleState :=
  { s with temp := s.back, back := s.temp }

/-- Intermediate state of `DoubleBuffer::swap` after
`let front_ptr = self.front.swap(back_ptr, SeqCst)` (line 54-56) but before
`self.back.store(front_ptr, SeqCst)` (line 57-58): `front` already holds the
loaded `back` pointer while `back` is still unchanged; the old front pointer
lives only in the local `front_ptr`. -/
def RoleState.swapAfterExchange (s : RoleState) : RoleState :=
  { s with front := s.back }

/-- State of `DoubleBuffer::swap` after the final `back.store(front_ptr)`. -/
def RoleState.swapAfterStore (s : RoleState) : RoleState :=
  { s.swapAfterExchange with back := s.front }

/-- Intermediate state of `DoubleBuffer::temp_to_back` after
`let temp_ptr = self.temp.swap(back_ptr, SeqCst)` (lines 69-71) but before
`self.back.store(temp_ptr, SeqCst)` (lines 72-73). -/
def RoleState.ttbAfterExchange (s : RoleState) : RoleState :=
  { s with temp := s.back }

/-- State of `DoubleBuffer::temp_to_back` after the final store. -/
def RoleState.ttbAfterStore (s : RoleState) : RoleState :=
  { s.ttbAfterExchange with back := s.temp }

/-- The two completed Buffer Ring operations reachable from the two threads:
the consumer's `swap()` and the producer's `temp_to_back()` (publish). -/
inductive BufOp where
  | swapOp
  | publishOp
deriving DecidableEq

/-- Apply one completed operation. -/
def applyOp (s : RoleState) : BufOp → RoleState
  | .swapOp => s.swap
  | .publishOp => s.temp_to_back

/-- Apply a finite sequence of completed operations, oldest first. -/
def applyOps (ops : List BufOp) (s : RoleState) : RoleState :=
  ops.foldl applyOp s

/-- The three role pointers as a list, in the order front, back, temp. -/
def RoleState.roleList (s : RoleState) : List Nat :=
  [s.front, s.back, s.temp]

theorem applyOp_roleList_perm (s : RoleState) (op : BufOp) :
    (applyOp s op).roleList.Perm s.roleList := by
  cases op with
  | swapOp =>
    exact List.Perm.swap _ _ _
  | publishOp =>
    exact List.Perm.cons _ (List.Perm.swap _ _ _)

theorem applyOps_roleList_perm (ops : List BufOp) (s : RoleState) :
    (applyOps ops s).roleList.Perm s.roleList := by
  induction ops generalizing s with
  | nil => exact List.Perm.refl _
  | cons op ops ih =>
    exact (ih (applyOp s op)).trans (applyOp_roleList_perm s op)

/-! ## Pacer (render thread, src/main.rs lines 178-197)

`Duration` values are modelled as `Nat` time units (durations are never
negative, and the source only ever subtracts a smaller duration from a larger
one).  `frame_time` is the target interval, `delay` the running deficit.
-/

/-- One pacer update from the consumer loop (lines 190-197):
`delay += elapsed; if delay < frame_time { sleep(frame_time - delay);
delay = ZERO } else { delay -= frame_time }`.  Returns the slept duration and
the new `delay`. -/
def pacerStep (frameTime delay elapsed : Nat) : Nat × Nat :=
  let d := delay + elapsed
  if d < frameTime then (frameTime - d, 0) else (0, d - frameTime)

/-- The pacer update exactly as the spec's Policy B sentence words it:
elapsed is added to the running delay; below target sleep the remainder and
reset the delay, otherwise do not sleep and subtract the target. -/
def pacerStepPolicyB (target delay e : Nat) : Nat × Nat :=
  if delay + e < target then (target - (delay + e), 0) else (0, delay + e - target)

/-- Run the pacer over a list of per-frame processing times, accumulating the
total wall-clock time (processing plus sleeps) and the running delay. -/
def pacerRun (frameTime : Nat) (ps : List Nat) : Nat × Nat :=
  ps.foldl
    (fun acc p =>
      ((acc.1 + p + (pacerStep frameTime acc.2 p).1), (pacerStep frameTime acc.2 p).2))
    (0, 0)

theorem pacerRun_foldl_invariant (frameTime : Nat) (ps : List Nat) (tot d : Nat) :
    (ps.foldl
      (fun acc p =>
        ((acc.1 + p + (pacerStep frameTime acc.2 p).1), (pacerStep frameTime acc.2 p).2))
      (tot, d)).1 + d =
    tot + ps.length * frameTime +
      (ps.foldl
        (fun acc p =>
          ((acc.1 + p + (pacerStep frameTime acc.2 p).1), (pacerStep frameTime acc.2 p).2))
        (tot, d)).2 := by
  induction ps generalizing tot d with
  | nil => simp
  | cons p ps ih =>
    simp only [List.foldl_cons, List.length_cons, Nat.succ_mul]
    by_cases h : d + p < frameTime
    · have := ih (tot + p + (frameTime - (d + p))) 0
      simp only [pacerStep, if_pos h] at *
      omega
    · have := ih (tot + p + 0) (d + p - frameTime)
      simp only [pacerStep, if_neg h] at *
      omega

theorem pacerRun_delay_zero (frameTime : Nat) (ps : List Nat) (tot : Nat)
    (h : ∀ p ∈ ps, p ≤ frameTime) :
    (ps.foldl
      (fun acc p =>
        ((acc.1 + p + (pacerStep frameTime acc.2 p).1), (pacerStep frameTime acc.2 p).2))
      (tot, 0)).2 = 0 := by
  induction ps generalizing tot with
  | nil => simp
  | cons p ps ih =>
    have hp : p ≤ frameTime := h p (List.mem_cons_self _ _)
    simp only [List.foldl_cons]
    by_cases hlt : 0 + p < frameTime
    · simp only [pacerStep, if_pos hlt]
      exact ih _ (fun q hq => h q (List.mem_cons_of_mem _ hq))
    · simp only [pacerStep, if_neg hlt]
      have : 0 + p - frameTime = 0 := by omega
      rw [this]
      exact ih _ (fun q hq => h q (List.mem_cons_of_mem _ hq))

/-! ## Cell Encoder (producer per-pixel loop, src/main.rs lines 142-158)

`img.get_pixel(x, y).0` yields four channel bytes `[r, g, b, a]`; the code
destructures them as `let [r, g, b, _] = ...`, discarding alpha.  The
`write!` call appends, in order: the literal `"\x1b["`, the decimal rendering
of `y`, `";"`, the decimal rendering of `x * 2`, `"H\x1b[38;2;"`, the decimal
renderings of `r`, `g`, `b` separated by `";"`, `"m"`, and the glyph argument
`"██"`.  Channel bytes are modelled as `Nat`.
-/

/-- The fixed double-width filled block glyph the source passes to `write!`. -/
def blockGlyph : String := "██"

/-- Output bytes appended for one source pixel `(r, g, b, a)` at cell
coordinates `(x, y)` (src/main.rs lines 144-155). -/
def encodePixel (y x : Nat) (px : Nat × Nat × Nat × Nat) : String :=
  match px with
  | (r, g, b, _) =>
    "\x1b[" ++ toString y ++ ";" ++ toString (x * 2) ++ "H\x1b[38;2;" ++
      toString r ++ ";" ++ toString g ++ ";" ++ toString b ++ "m" ++ blockGlyph

/-- One band's buffer (src/main.rs lines 138-159): rows
`block_id * chunk_rows .. block_id * chunk_rows + chunk_rows`, each row's
columns `0 .. cols`, appended in order into the band's own `buf`. -/
def encodeBand (img : Nat → Nat → Nat × Nat × Nat × Nat)
    (cols chunkRows blockId : Nat) : String :=
  String.join ((List.range' (blockId * chunkRows) chunkRows).map (fun y =>
    String.join ((List.range cols).map (fun x => encodePixel y x (img x y)))))

/-- The frame blob (src/main.rs lines 136-165): the 24 band buffers
concatenated in band-index order 0..23 into the cleared `back.data`. -/
def frameBlob (img : Nat → Nat → Nat × Nat × Nat × Nat)
    (cols chunkRows : Nat) : String :=
  String.join ((List.range 24).map (encodeBand img cols chunkRows))

/-- Band results produced by executing the bands in an arbitrary completion
`order`: each completing band writes its own buffer into the result slot
named by its `blockId`; slots of bands that never ran stay empty. -/
def bandResults (img : Nat → Nat → Nat × Nat × Nat × Nat)
    (cols chunkRows : Nat) (order : List Nat) : Nat → String :=
  order.foldl
    (fun acc blockId => Function.update acc blockId (encodeBand img cols chunkRows blockId))
    (fun _ => "")

/-- The frame blob assembled from a scheduled execution: band buffers are
read back and concatenated in band-index order, not completion order. -/
def frameBlobSched (img : Nat → Nat → Nat × Nat × Nat × Nat)
    (cols chunkRows : Nat) (order : List Nat) : String :=
  String.join ((List.range 24).map (bandResults img cols chunkRows order))

theorem foldl_update_apply {α : Type} (f : Nat → α) (g : Nat → α)
    (order : List Nat) (i : Nat) :
    (order.foldl (fun acc j => Function.update acc j (f j)) g) i =
      if i ∈ order then f i else g i := by
  induction order generalizing g with
  | nil => simp
  | cons j rest ih =>
    simp only [List.foldl_cons]
    rw [ih]
    by_cases hm : i ∈ rest
    · simp [hm]
    · by_cases hij : i = j
      · subst hij
        simp [hm, Function.update_same]
      · simp [hm, hij, Function.update_noteq hij]

/-! ## Frame Source failure handling (src/main.rs lines 127-129)

`image::open(&path).unwrap()` panics on the first path that fails to open or
decode, killing the producer loop at once: no frame is encoded for that path
or any later path, there is no retry and no placeholder.  The loop is
modelled as a function from a fallible decoder to the list of frames encoded
before the first failure, paired with the failing path (the panic), if any.
-/

/-- The producer's `for path in paths.iter()` loop viewed through its decode
calls: on `decode p = none` the `unwrap` panic aborts immediately with no
frames from `p` onward; otherwise the decoded image is encoded and the loop
continues. -/
def processPaths {α β : Type} (decode : α → Option β) : List α → List β × Option α
  | [] => ([], none)
  | p :: ps =>
    match decode p with
    | none => ([], some p)
    | some b =>
      let r := processPaths decode ps
      (b :: r.1, r.2)

/-! ## Claim theorems C1, C3, C4, C5, C6, C7, C8 -/

/-- C1: starting from a `DoubleBuffer` whose `front`, `back` and `temp` point
at three distinct allocated (non-null) slots, after every finite sequence of
completed `swap()` and `temp_to_back()` operations the three roles are still a
permutation of the same three slots: no role is null and no two roles point at
the same slot. -/
theorem c1_roles_always_permutation (ops : List BufOp) (s : RoleState)
    (hnodup : s.roleList.Nodup) (hnonnull : 0 ∉ s.roleList) :
    (applyOps ops s).roleList.Perm s.roleList ∧
    (applyOps ops s).roleList.Nodup ∧
    0 ∉ (applyOps ops s).roleList := by
  have hperm := applyOps_roleList_perm ops s
  exact ⟨hperm, hperm.symm.nodup hnodup, fun h => hnonnull (hperm.subset h)⟩

/-- Witness for C1 at the initial layout `front = 1, back = 2, temp = 3` and
the operation sequence publish-then-swap. -/
theorem c1_witness :
    (RoleState.roleList ⟨1, 2, 3⟩).Nodup ∧ 0 ∉ RoleState.roleList ⟨1, 2, 3⟩ ∧
    ((applyOps [BufOp.publishOp, BufOp.swapOp] ⟨1, 2, 3⟩).roleList.Perm
        (RoleState.roleList ⟨1, 2, 3⟩) ∧
      (applyOps [BufOp.publishOp, BufOp.swapOp] ⟨1, 2, 3⟩).roleList.Nodup ∧
      0 ∉ (applyOps [BufOp.publishOp, BufOp.swapOp] ⟨1, 2, 3⟩).roleList) :=
  ⟨by decide, by decide,
    c1_roles_always_permutation [BufOp.publishOp, BufOp.swapOp] ⟨1, 2, 3⟩
      (by decide) (by decide)⟩

/-- C3 counterexample: `swap()` is not a single atomic exchange.  At the
concrete initial layout `front = 1, back = 2, temp = 3`, the state reached
after the `front.swap(back_ptr)` exchange but before the `back.store` has
`front = back = 2` — two roles point at the same slot at an intermediate step
of the operation — and that intermediate state is not the completed swap.
`temp_to_back` has the same transient aliasing window between its exchange and
its store. -/
theorem c3_counterexample :
    (RoleState.swapAfterExchange ⟨1, 2, 3⟩).front =
        (RoleState.swapAfterExchange ⟨1, 2, 3⟩).back ∧
      RoleState.swapAfterExchange ⟨1, 2, 3⟩ ≠ RoleState.swap ⟨1, 2, 3⟩ ∧
      (RoleState.ttbAfterExchange ⟨1, 2, 3⟩).temp =
        (RoleState.ttbAfterExchange ⟨1, 2, 3⟩).back :=
  ⟨rfl, by decide, rfl⟩

/-- C3 amended: each role reassignment is implemented as three separate
atomic operations — a load, an atomic exchange, and a store — not as one
single atomic exchange.  Between the exchange and the final store the written
role and `back` both hold the old `back` pointer, so two roles transiently
alias one slot; once the store completes the operation has exactly the effect
of the intended exchange of the two roles. -/
theorem c3_three_atomic_steps (s : RoleState) :
    (s.swapAfterExchange).front = s.back ∧
      (s.swapAfterExchange).back = s.back ∧
      s.swapAfterStore = s.swap ∧
      (s.ttbAfterExchange).temp = s.back ∧
      (s.ttbAfterExchange).back = s.back ∧
      s.ttbAfterStore = s.temp_to_back :=
  ⟨rfl, rfl, rfl, rfl, rfl, rfl⟩

/-- C4 counterexample: a pixel with alpha = 0 does not map to a blank glyph.
At the concrete pixel `(r, g, b, a) = (9, 9, 9, 0)` the encoder emits exactly
the same cell as for the fully opaque pixel `(9, 9, 9, 255)`, and that cell
ends in the filled double-width block glyph `██`, not a blank. -/
theorem c4_counterexample :
    encodePixel 0 0 (9, 9, 9, 0) = encodePixel 0 0 (9, 9, 9, 255) ∧
      encodePixel 0 0 (9, 9, 9, 0) = "\x1b[0;0H\x1b[38;2;9;9;9m██" ∧
      blockGlyph = "██" := by
  refine ⟨rfl, by decide, rfl⟩

/-- C4 amended: for every source pixel the cell encoder discards the alpha
channel entirely and always emits the fixed double-width filled block glyph
`██` — there is no blank glyph for alpha = 0 — while the pixel's R, G, B
channel values pass unmodified (in decimal) into the cell's color escape
sequence. -/
theorem c4_alpha_ignored_rgb_passthrough (y x r g b a a' : Nat) :
    encodePixel y x (r, g, b, a) = encodePixel y x (r, g, b, a') ∧
      encodePixel y x (r, g, b, a) =
        ("\x1b[" ++ toString y ++ ";" ++ toString (x * 2) ++ "H") ++
          ("\x1b[38;2;" ++ toString r ++ ";" ++ toString g ++ ";" ++
            toString b ++ "m") ++ blockGlyph := by
  constructor
  · rfl
  · apply String.ext
    simp [encodePixel, String.data_append]

/-- C5: each consumer iteration updates the pacer state exactly by Policy B:
with the measured elapsed time added to the running delay, if the sum is
below the target the consumer sleeps the remainder and the new delay is zero;
otherwise it does not sleep and the new delay is the sum minus the target. -/
theorem c5_pacer_is_policy_b (frameTime delay elapsed : Nat) :
    pacerStep frameTime delay elapsed = pacerStepPolicyB frameTime delay elapsed :=
  rfl

/-- C6 counterexample: with target interval 10 and five frames that each take
20 units of processing, the cumulative wall-clock time is 100, which exceeds
`F × target + one frame's processing time = 5 * 10 + 20 = 70`: the drift is
not bounded by one frame's processing time, and it keeps growing while
processing times stay above the target even though they are bounded. -/
theorem c6_counterexample :
    (pacerRun 10 [20, 20, 20, 20, 20]).1 = 100 ∧
      5 * 10 + 20 < (pacerRun 10 [20, 20, 20, 20, 20]).1 ∧
      (pacerRun 10 [20, 20, 20, 20, 20]).2 = 50 := by
  refine ⟨by decide, by decide, by decide⟩

/-- C6 amended: under the Policy B pacer, for every sequence of per-frame
processing times the cumulative wall-clock time after F frames equals exactly
`F × target + delay_F`, where `delay_F` is the residual accumulated deficit;
whenever every frame's processing time is at most the target the residual is
zero, so the cumulative time is exactly `F × target`.  (When processing times
persistently exceed the target the residual — and hence the drift — grows
without bound, so no bound by one frame's processing time holds.) -/
theorem c6_exact_time_accounting (frameTime : Nat) (ps : List Nat) :
    (pacerRun frameTime ps).1 = ps.length * frameTime + (pacerRun frameTime ps).2 ∧
      ((∀ p ∈ ps, p ≤ frameTime) → (pacerRun frameTime ps).2 = 0) := by
  constructor
  · have h := pacerRun_foldl_invariant frameTime ps 0 0
    unfold pacerRun
    omega
  · intro hp
    have h := pacerRun_delay_zero frameTime ps 0 hp
    unfold pacerRun
    exact h

/-- Witness for C6 at target 10 and processing times `[5, 10, 3]`. -/
theorem c6_witness :
    (∀ p ∈ [5, 10, 3], p ≤ 10) ∧
      (pacerRun 10 [5, 10, 3]).1 = 3 * 10 + (pacerRun 10 [5, 10, 3]).2 ∧
      (pacerRun 10 [5, 10, 3]).2 = 0 := by
  refine ⟨by decide, ?_, ?_⟩
  · exact (c6_exact_time_accounting 10 [5, 10, 3]).1
  · exact (c6_exact_time_accounting 10 [5, 10, 3]).2 (by decide)

/-- C7: for every input image, assembling the frame from any completion order
of the 24 bands yields the same blob as the in-order banded encoder, because
each band writes only its own result slot and the slots are concatenated in
band-index order; moreover distinct bands own disjoint row ranges. -/
theorem c7_band_determinism (img : Nat → Nat → Nat × Nat × Nat × Nat)
    (cols chunkRows : Nat) (order : List Nat)
    (h : order.Perm (List.range 24)) :
    frameBlobSched img cols chunkRows order = frameBlob img cols chunkRows ∧
      (∀ i j y, i ≠ j →
        y ∈ List.range' (i * chunkRows) chunkRows →
        y ∈ List.range' (j * chunkRows) chunkRows → False) := by
  constructor
  · unfold frameBlobSched frameBlob bandResults
    refine congrArg String.join (List.map_congr_left ?_)
    intro i hi
    rw [foldl_update_apply]
    rw [if_pos (h.mem_iff.mpr hi)]
  · intro i j y hij h1 h2
    rw [List.mem_range'_1] at h1 h2
    rcases Nat.lt_or_ge i j with hlt | hge
    · have hm := Nat.mul_le_mul_right chunkRows (Nat.succ_le_of_lt hlt)
      rw [Nat.succ_mul] at hm
      omega
    · have hlt' : j < i := Nat.lt_of_le_of_ne hge (fun e => hij e.symm)
      have hm := Nat.mul_le_mul_right chunkRows (Nat.succ_le_of_lt hlt')
      rw [Nat.succ_mul] at hm
      omega

/-- Witness for C7: a reversed completion order of the 24 bands on a one
column, one-row-per-band image produces the same blob as the in-order
encoder. -/
theorem c7_witness :
    ((List.range 24).reverse.Perm (List.range 24)) ∧
      frameBlobSched (fun _ _ => (0, 0, 0, 0)) 1 1 (List.range 24).reverse =
        frameBlob (fun _ _ => (0, 0, 0, 0)) 1 1 :=
  ⟨(List.range 24).reverse_perm,
    (c7_band_determinism (fun _ _ => (0, 0, 0, 0)) 1 1 (List.range 24).reverse
      (List.range 24).reverse_perm).1⟩

/-- C8: if opening or decoding the image at a requested path fails, the
failure is fatal and immediate: the frames produced are exactly those of the
paths before the failing one, the failing path is reported (the `unwrap`
panic), and no later path is touched — no retry, no skip to the next index,
no placeholder. -/
theorem c8_decode_failure_fatal {α β : Type} (decode : α → Option β)
    (pre : List α) (p : α) (post : List α)
    (hpre : ∀ q ∈ pre, (decode q).isSome)
    (hp : decode p = none) :
    processPaths decode (pre ++ p :: post) = (pre.filterMap decode, some p) := by
  induction pre with
  | nil => simp [processPaths, hp]
  | cons q pre ih =>
    have hq := hpre q (List.mem_cons_self _ _)
    obtain ⟨b, hb⟩ := Option.isSome_iff_exists.mp hq
    have := ih (fun t ht => hpre t (List.mem_cons_of_mem _ ht))
    simp [processPaths, hb, this]

/-- Witness for C8: decoding fails at path 2; paths 0 and 1 decode, paths 3
and 4 are never reached. -/
theorem c8_witness :
    (∀ q ∈ [0, 1], ((fun n : Nat => if n = 2 then none else some (n + 100)) q).isSome) ∧
      ((fun n : Nat => if n = 2 then none else some (n + 100)) 2 = none) ∧
      processPaths (fun n : Nat => if n = 2 then none else some (n + 100))
          ([0, 1] ++ 2 :: [3, 4]) =
        ([0, 1].filterMap (fun n : Nat => if n = 2 then none else some (n + 100)), some 2) :=
  ⟨by decide, by decide,
    c8_decode_failure_fatal (fun n : Nat => if n = 2 then none else some (n + 100))
      [0, 1] 2 [3, 4] (by decide) (by decide)⟩

/-! ## Two-thread hand-off model (src/main.rs lines 126-202)

Interleaving semantics of the producer (`cpu_handle`) and consumer
(`render_handle`) threads.  Each thread is a program counter; the `request`
and `ready` channels are token counts; the three buffer slots are `Fin 3`
addresses whose contents are frame sequence numbers (`0` is the initial
empty `FrameData` allocated by `DoubleBuffer::new`, frame `n ≥ 1` is the
`n`-th encoded image).  Each atomic step appends its observable event to a
newest-first log.  A schedule is a list of booleans, `true` running the
producer for one step and `false` the consumer; a blocked `recv` stutters.
-/

/-- Producer program counter: encode into temp (lines 129-166), receive a
request token (line 167), publish via `temp_to_back` (line 168), send a
ready token (line 169). -/
inductive PPC where
  | pEnc
  | pRecv
  | pPub
  | pSend
deriving DecidableEq

/-- Consumer program counter: send the single startup request token
(line 174), then loop: receive a ready token (line 182), write `front`
(lines 184-186), pace (lines 189-197), swap (line 199), send a request
token (line 201). -/
inductive CPC where
  | cStart
  | cRecv
  | cDisp
  | cPace
  | cSwap
  | cSend
deriving DecidableEq

/-- Observable events: encode of frame n completed, publish of frame n,
display (terminal write) of the frame whose content is n, swap number n. -/
inductive Ev where
  | encEv (n : Nat)
  | pubEv (n : Nat)
  | dispEv (n : Nat)
  | swapEv (n : Nat)
deriving DecidableEq

/-- Global state of the two-thread system. -/
structure Sys where
  p : PPC
  c : CPC
  req : Nat
  ready : Nat
  front : Fin 3
  back : Fin 3
  temp : Fin 3
  cont : Fin 3 → Nat
  encN : Nat
  pubN : Nat
  dispN : Nat
  swapN : Nat
  pSteps : Nat
  cSteps : Nat
  log : List Ev

/-- One producer step.  Encoding writes the next frame number into the slot
currently named `temp`; a blocked `new_request_rx.recv()` leaves the state
unchanged; publish exchanges the `temp` and `back` roles
(`temp_to_back`). -/
def pStep (s : Sys) : Sys :=
  match s.p with
  | .pEnc =>
    { s with p := .pRecv,
             cont := Function.update s.cont s.temp (s.encN + 1),
             encN := s.encN + 1,
             pSteps := s.pSteps + 1,
             log := Ev.encEv (s.encN + 1) :: s.log }
  | .pRecv =>
    if s.req = 0 then s
    else { s with p := .pPub, req := s.req - 1, pSteps := s.pSteps + 1 }
  | .pPub =>
    { s with p := .pSend,
             temp := s.back, back := s.temp,
             pubN := s.pubN + 1,
             pSteps := s.pSteps + 1,
             log := Ev.pubEv (s.cont s.temp) :: s.log }
  | .pSend =>
    { s with p := .pEnc, ready := s.ready + 1, pSteps := s.pSteps + 1 }

/-- One consumer step.  The display step writes the contents of the slot
currently named `front` to the terminal; swap exchanges the `front` and
`back` roles (`DoubleBuffer::swap`); the pacer does not touch the shared
state. -/
def cStep (s : Sys) : Sys :=
  match s.c with
  | .cStart =>
    { s with c := .cRecv, req := s.req + 1, cSteps := s.cSteps + 1 }
  | .cRecv =>
    if s.ready = 0 then s
    else { s with c := .cDisp, ready := s.ready - 1, cSteps := s.cSteps + 1 }
  | .cDisp =>
    { s with c := .cPace, dispN := s.dispN + 1, cSteps := s.cSteps + 1,
             log := Ev.dispEv (s.cont s.front) :: s.log }
  | .cPace =>
    { s with c := .cSwap, cSteps := s.cSteps + 1 }
  | .cSwap =>
    { s with c := .cSend, front := s.back, back := s.front,
             swapN := s.swapN + 1, cSteps := s.cSteps + 1,
             log := Ev.swapEv (s.swapN + 1) :: s.log }
  | .cSend =>
    { s with c := .cRecv, req := s.req + 1, cSteps := s.cSteps + 1 }

/-- One scheduled step: `true` runs the producer, `false` the consumer. -/
def sysStep (t : Bool) (s : Sys) : Sys :=
  if t then pStep s else cStep s

/-- The startup state: both threads at their entry points, no tokens, the
three freshly allocated slots holding the empty initial frames, roles
`front = 0`, `back = 1`, `temp = 2` as installed by `DoubleBuffer::new`. -/
def sysInit : Sys :=
  { p := .pEnc, c := .cStart, req := 0, ready := 0,
    front := 0, back := 1, temp := 2, cont := fun _ => 0,
    encN := 0, pubN := 0, dispN := 0, swapN := 0,
    pSteps := 0, cSteps := 0, log := [] }

/-- Run a schedule from the startup state. -/
def sysRun (sched : List Bool) : Sys :=
  sched.foldl (fun s t => sysStep t s) sysInit

/-- Frame number of a display event. -/
def evDisp : Ev → Option Nat
  | .dispEv n => some n
  | _ => none

/-- Frame number of a publish event. -/
def evPub : Ev → Option Nat
  | .pubEv n => some n
  | _ => none

/-- Numeric truth value. -/
def bn (q : Prop) [Decidable q] : Nat :=
  if q then 1 else 0

/-- Producer steps completed within the current loop iteration. -/
def tp : PPC → Nat
  | .pSend => 0
  | .pEnc => 1
  | .pRecv => 2
  | .pPub => 3

/-- Consumer steps completed within the current loop iteration. -/
def tc : CPC → Nat
  | .cStart => 0
  | .cRecv => 1
  | .cDisp => 2
  | .cPace => 3
  | .cSwap => 4
  | .cSend => 0

/-- The inductive invariant of the hand-off protocol.  `bn`-weighted
equations track the single circulating baton (the strict ping-pong), the
per-thread loop phase, the slot-distinctness of the three roles, the slot
contents, the event log and the step counters. -/
structure Inv (s : Sys) : Prop where
  baton : s.req + s.ready + bn (s.p = .pPub ∨ s.p = .pSend) + bn (s.c ≠ .cRecv) = 1
  encPub : s.encN = s.pubN + bn (s.p = .pRecv ∨ s.p = .pPub)
  dispSwap : s.dispN = s.swapN + bn (s.c = .cPace ∨ s.c = .cSwap)
  reqBal : s.swapN + bn (¬(s.c = .cStart ∨ s.c = .cSend)) =
    s.req + s.pubN + bn (s.p = .pPub)
  readyBal : s.pubN = s.ready + s.dispN + bn (s.c = .cDisp) + bn (s.p = .pSend)
  fbNe : s.front ≠ s.back
  ftNe : s.front ≠ s.temp
  btNe : s.back ≠ s.temp
  tempCont : s.p = .pRecv ∨ s.p = .pPub → s.cont s.temp = s.encN
  frontCont : s.cont s.front = s.swapN
  backCont :
    s.p = .pSend ∨ 0 < s.ready ∨ s.c = .cDisp ∨ s.c = .cPace ∨ s.c = .cSwap →
    s.cont s.back = s.pubN
  dispLog : s.log.filterMap evDisp = (List.range s.dispN).reverse
  pubLog : s.log.filterMap evPub = ((List.range s.pubN).map (· + 1)).reverse
  pStepsEq : s.pSteps + 1 = 4 * s.pubN + tp s.p
  cStepsEq : s.cSteps = 5 * s.swapN + tc s.c

theorem inv_sysInit : Inv sysInit := by
  constructor <;> decide

theorem bn_le_bn {q r : Prop} [Decidable q] [Decidable r] (h : q → r) :
    bn q ≤ bn r := by
  by_cases hq : q
  · simp [bn, hq, h hq]
  · simp [bn, hq]

theorem bn_pos_eq {q : Prop} [Decidable q] (h : q) : bn q = 1 := by
  simp [bn, h]

theorem bn_neg_eq {q : Prop} [Decidable q] (h : ¬q) : bn q = 0 := by
  simp [bn, h]

theorem inv_pStep (s : Sys) (h : Inv s) : Inv (pStep s) := by
  obtain ⟨p, c, req, ready, front, back, temp, cont,
    encN, pubN, dispN, swapN, pSteps, cSteps, log⟩ := s
  obtain ⟨hb, hep, hds, hrb, hyb, hfb, hft, hbt, htc, hfc, hbc, hdl, hpl, hps, hcs⟩ := h
  dsimp only at hb hep hds hrb hyb hfb hft hbt htc hfc hbc hdl hpl hps hcs
  cases p with
  | pEnc =>
    simp only [pStep]
    refine ⟨?_, ?_, ?_, ?_, ?_, ?_, ?_, ?_, ?_, ?_, ?_, ?_, ?_, ?_, ?_⟩ <;> dsimp only
    · simpa [bn] using hb
    · simp [bn] at hep ⊢
      omega
    · exact hds
    · simpa [bn] using hrb
    · simpa [bn] using hyb
    · exact hfb
    · exact hft
    · exact hbt
    · intro _
      simp [Function.update_same]
    · simp only [Function.update_noteq hft]
      exact hfc
    · intro hφ
      simp only [Function.update_noteq hbt]
      rcases hφ with hx | hx
      · exact absurd hx (by decide)
      · exact hbc (Or.inr hx)
    · simpa [evDisp, List.filterMap_cons] using hdl
    · simpa [evPub, List.filterMap_cons] using hpl
    · simp [tp] at hps ⊢
      omega
    · exact hcs
  | pRecv =>
    simp only [pStep]
    by_cases hreq : req = 0
    · simp only [if_pos hreq]
      exact ⟨hb, hep, hds, hrb, hyb, hfb, hft, hbt, htc, hfc, hbc, hdl, hpl, hps, hcs⟩
    · simp only [if_neg hreq]
      refine ⟨?_, ?_, ?_, ?_, ?_, ?_, ?_, ?_, ?_, ?_, ?_, ?_, ?_, ?_, ?_⟩ <;> dsimp only
      · simp [bn] at hb ⊢
        omega
      · simpa [bn] using hep
      · exact hds
      · simp [bn] at hrb ⊢
        omega
      · simpa [bn] using hyb
      · exact hfb
      · exact hft
      · exact hbt
      · intro _
        exact htc (Or.inl rfl)
      · exact hfc
      · intro hφ
        rcases hφ with hx | hx
        · exact absurd hx (by decide)
        · exact hbc (Or.inr hx)
      · exact hdl
      · exact hpl
      · simp [tp] at hps ⊢
        omega
      · exact hcs
  | pPub =>
    simp only [pStep]
    refine ⟨?_, ?_, ?_, ?_, ?_, ?_, ?_, ?_, ?_, ?_, ?_, ?_, ?_, ?_, ?_⟩ <;> dsimp only
    · simpa [bn] using hb
    · simp [bn] at hep ⊢
      omega
    · exact hds
    · simp [bn] at hrb ⊢
      omega
    · simp [bn] at hyb ⊢
      omega
    · exact hft
    · exact hfb
    · exact fun e => hbt e.symm
    · intro hx
      rcases hx with hx | hx
      · exact absurd hx (by decide)
      · exact absurd hx (by decide)
    · exact hfc
    · intro _
      rw [htc (Or.inr rfl)]
      simp [bn] at hep
      omega
    · simpa [evDisp, List.filterMap_cons] using hdl
    · have h1 : cont temp = pubN + 1 := by
        rw [htc (Or.inr rfl)]
        simp [bn] at hep
        omega
      simp [evPub, List.filterMap_cons, List.range_succ, h1, hpl]
    · simp [tp] at hps ⊢
      omega
    · exact hcs
  | pSend =>
    simp only [pStep]
    refine ⟨?_, ?_, ?_, ?_, ?_, ?_, ?_, ?_, ?_, ?_, ?_, ?_, ?_, ?_, ?_⟩ <;> dsimp only
    · simp [bn] at hb ⊢
      omega
    · simpa [bn] using hep
    · exact hds
    · simpa [bn] using hrb
    · simp [bn] at hyb ⊢
      omega
    · exact hfb
    · exact hft
    · exact hbt
    · intro hx
      rcases hx with hx | hx
      · exact absurd hx (by decide)
      · exact absurd hx (by decide)
    · exact hfc
    · intro _
      exact hbc (Or.inl rfl)
    · exact hdl
    · exact hpl
    · simp [tp] at hps ⊢
      omega
    · exact hcs

theorem inv_cStep (s : Sys) (h : Inv s) : Inv (cStep s) := by
  obtain ⟨p, c, req, ready, front, back, temp, cont,
    encN, pubN, dispN, swapN, pSteps, cSteps, log⟩ := s
  obtain ⟨hb, hep, hds, hrb, hyb, hfb, hft, hbt, htc, hfc, hbc, hdl, hpl, hps, hcs⟩ := h
  dsimp only at hb hep hds hrb hyb hfb hft hbt htc hfc hbc hdl hpl hps hcs
  cases c with
  | cStart =>
    simp only [cStep]
    refine ⟨?_, ?_, ?_, ?_, ?_, ?_, ?_, ?_, ?_, ?_, ?_, ?_, ?_, ?_, ?_⟩ <;> dsimp only
    · simp [bn_pos_eq, bn_neg_eq] at hb ⊢
      omega
    · exact hep
    · simp [bn_pos_eq, bn_neg_eq] at hds ⊢
      omega
    · simp [bn_pos_eq, bn_neg_eq] at hrb ⊢
      omega
    · simp [bn_pos_eq, bn_neg_eq] at hyb ⊢
      omega
    · exact hfb
    · exact hft
    · exact hbt
    · exact htc
    · exact hfc
    · intro hφ
      rcases hφ with hx | hx | hx | hx | hx
      · exact hbc (Or.inl hx)
      · exact hbc (Or.inr (Or.inl hx))
      · exact absurd hx (by decide)
      · exact absurd hx (by decide)
      · exact absurd hx (by decide)
    · exact hdl
    · exact hpl
    · exact hps
    · simp [tc] at hcs ⊢
      omega
  | cRecv =>
    simp only [cStep]
    by_cases hready : ready = 0
    · simp only [if_pos hready]
      exact ⟨hb, hep, hds, hrb, hyb, hfb, hft, hbt, htc, hfc, hbc, hdl, hpl, hps, hcs⟩
    · simp only [if_neg hready]
      refine ⟨?_, ?_, ?_, ?_, ?_, ?_, ?_, ?_, ?_, ?_, ?_, ?_, ?_, ?_, ?_⟩ <;> dsimp only
      · simp [bn_pos_eq, bn_neg_eq] at hb ⊢
        omega
      · exact hep
      · simp [bn_pos_eq, bn_neg_eq] at hds ⊢
        omega
      · simp [bn_pos_eq, bn_neg_eq] at hrb ⊢
        omega
      · simp [bn_pos_eq, bn_neg_eq] at hyb ⊢
        omega
      · exact hfb
      · exact hft
      · exact hbt
      · exact htc
      · exact hfc
      · intro _
        exact hbc (Or.inr (Or.inl (Nat.pos_of_ne_zero hready)))
      · exact hdl
      · exact hpl
      · exact hps
      · simp [tc] at hcs ⊢
        omega
  | cDisp =>
    simp only [cStep]
    refine ⟨?_, ?_, ?_, ?_, ?_, ?_, ?_, ?_, ?_, ?_, ?_, ?_, ?_, ?_, ?_⟩ <;> dsimp only
    · simp [bn_pos_eq, bn_neg_eq] at hb ⊢
      omega
    · exact hep
    · simp [bn_pos_eq, bn_neg_eq] at hds ⊢
      omega
    · simp [bn_pos_eq, bn_neg_eq] at hrb ⊢
      omega
    · simp [bn_pos_eq, bn_neg_eq] at hyb ⊢
      omega
    · exact hfb
    · exact hft
    · exact hbt
    · exact htc
    · exact hfc
    · intro _
      exact hbc (Or.inr (Or.inr (Or.inl rfl)))
    · have h1 : cont front = dispN := by
        rw [hfc]
        simp [bn_pos_eq, bn_neg_eq] at hds
        omega
      simp [evDisp, List.filterMap_cons, List.range_succ, h1, hdl]
    · simpa [evPub, List.filterMap_cons] using hpl
    · exact hps
    · simp [tc] at hcs ⊢
      omega
  | cPace =>
    simp only [cStep]
    refine ⟨?_, ?_, ?_, ?_, ?_, ?_, ?_, ?_, ?_, ?_, ?_, ?_, ?_, ?_, ?_⟩ <;> dsimp only
    · simp [bn_pos_eq, bn_neg_eq] at hb ⊢
      omega
    · exact hep
    · simp [bn_pos_eq, bn_neg_eq] at hds ⊢
      omega
    · simp [bn_pos_eq, bn_neg_eq] at hrb ⊢
      omega
    · simp [bn_pos_eq, bn_neg_eq] at hyb ⊢
      omega
    · exact hfb
    · exact hft
    · exact hbt
    · exact htc
    · exact hfc
    · intro _
      exact hbc (Or.inr (Or.inr (Or.inr (Or.inl rfl))))
    · exact hdl
    · exact hpl
    · exact hps
    · simp [tc] at hcs ⊢
      omega
  | cSwap =>
    simp only [cStep]
    refine ⟨?_, ?_, ?_, ?_, ?_, ?_, ?_, ?_, ?_, ?_, ?_, ?_, ?_, ?_, ?_⟩ <;> dsimp only
    · simp [bn_pos_eq, bn_neg_eq] at hb ⊢
      omega
    · exact hep
    · simp [bn_pos_eq, bn_neg_eq] at hds ⊢
      omega
    · simp [bn_pos_eq, bn_neg_eq] at hrb ⊢
      omega
    · simp [bn_pos_eq, bn_neg_eq] at hyb ⊢
      omega
    · exact fun e => hfb e.symm
    · exact hbt
    · exact hft
    · exact htc
    · rw [hbc (Or.inr (Or.inr (Or.inr (Or.inr rfl))))]
      have hmono : bn (p = PPC.pSend) ≤ bn (p = PPC.pPub ∨ p = PPC.pSend) :=
        bn_le_bn Or.inr
      simp [bn_pos_eq, bn_neg_eq] at hb hds hyb hmono ⊢
      omega
    · intro hφ
      exfalso
      rcases hφ with hx | hx | hx | hx | hx
      · subst hx
        simp [bn_pos_eq, bn_neg_eq] at hb
      · simp [bn_pos_eq, bn_neg_eq] at hb
        omega
      · exact absurd hx (by decide)
      · exact absurd hx (by decide)
      · exact absurd hx (by decide)
    · simpa [evDisp, List.filterMap_cons] using hdl
    · simpa [evPub, List.filterMap_cons] using hpl
    · exact hps
    · simp [tc] at hcs ⊢
      omega
  | cSend =>
    simp only [cStep]
    refine ⟨?_, ?_, ?_, ?_, ?_, ?_, ?_, ?_, ?_, ?_, ?_, ?_, ?_, ?_, ?_⟩ <;> dsimp only
    · simp [bn_pos_eq, bn_neg_eq] at hb ⊢
      omega
    · exact hep
    · simp [bn_pos_eq, bn_neg_eq] at hds ⊢
      omega
    · simp [bn_pos_eq, bn_neg_eq] at hrb ⊢
      omega
    · simp [bn_pos_eq, bn_neg_eq] at hyb ⊢
      omega
    · exact hfb
    · exact hft
    · exact hbt
    · exact htc
    · exact hfc
    · intro hφ
      rcases hφ with hx | hx | hx | hx | hx
      · exact hbc (Or.inl hx)
      · exact hbc (Or.inr (Or.inl hx))
      · exact absurd hx (by decide)
      · exact absurd hx (by decide)
      · exact absurd hx (by decide)
    · exact hdl
    · exact hpl
    · exact hps
    · simp [tc] at hcs ⊢
      omega

theorem inv_sysStep (t : Bool) (s : Sys) (h : Inv s) : Inv (sysStep t s) := by
  cases t
  · exact inv_cStep s h
  · exact inv_pStep s h

theorem inv_foldl (sched : List Bool) (s : Sys) (h : Inv s) :
    Inv (sched.foldl (fun s t => sysStep t s) s) := by
  induction sched generalizing s with
  | nil => exact h
  | cons t rest ih => exact ih _ (inv_sysStep t s h)

theorem inv_sysRun (sched : List Bool) : Inv (sysRun sched) :=
  inv_foldl sched sysInit inv_sysInit

theorem bn_le_one (q : Prop) [Decidable q] : bn q ≤ 1 := by
  by_cases h : q <;> simp [bn, h]

/-- The producer can take a step (it is only ever blocked at a `recv` on an
empty request channel). -/
def pEnabled (s : Sys) : Prop :=
  s.p ≠ PPC.pRecv ∨ 0 < s.req

/-- The consumer can take a step (it is only ever blocked at a `recv` on an
empty ready channel). -/
def cEnabled (s : Sys) : Prop :=
  s.c ≠ CPC.cRecv ∨ 0 < s.ready

theorem inv_dispN_zero_steps (s : Sys) (h : Inv s) (h0 : s.dispN = 0) :
    s.pSteps + s.cSteps ≤ 7 := by
  obtain ⟨p, c, req, ready, front, back, temp, cont,
    encN, pubN, dispN, swapN, pSteps, cSteps, log⟩ := s
  obtain ⟨hb, hep, hds, hrb, hyb, -, -, -, -, -, -, -, -, hp4, hc5⟩ := h
  dsimp only at hb hds hrb hyb hp4 hc5 h0 ⊢
  cases p <;> cases c <;>
    simp [bn_pos_eq, bn_neg_eq, tp, tc] at hb hds hrb hyb hp4 hc5 <;>
    omega

/-! ## Claim theorems C2, C9, C10 -/

/-- C2 counterexample: the encode of frame N+1 is not ordered after the
display-complete-swap of frame N.  In the concrete interleaving consumer
start; producer encode, receive, publish, send ready, encode — the log shows
the encode of frame 2 completed while no swap (and no display) of frame 1
has happened: the producer starts the next encode right after emitting the
ready token, before the consumer's display and swap. -/
theorem c2_counterexample :
    (sysRun [false, true, true, true, true, true]).log =
        [Ev.encEv 2, Ev.pubEv 1, Ev.encEv 1] ∧
      (sysRun [false, true, true, true, true, true]).swapN = 0 ∧
      (sysRun [false, true, true, true, true, true]).dispN = 0 := by
  refine ⟨by decide, by decide, by decide⟩

/-- C2 amended: in every interleaving, (a) the newest-first display log is
`[dispN-1, …, 1, 0]`, i.e. the k-th display event writes the frame published
k-1 hand-offs earlier (so the publish of frame N completes before the display
event that outputs frame N, which is display event N+1 and needs
`dispN ≥ N+1 ≤ pubN`); (b) the newest-first publish log is
`[pubN, …, 2, 1]`, i.e. the k-th publish event publishes exactly frame k;
(c) the display count never exceeds the publish count; and (d) the publish
count never exceeds the swap count plus one, so the display-complete-swap of
frame N happens before the publish of frame N+1 — while the encode of frame
N+1 may overlap the display of frame N. -/
theorem c2_handoff_ordering (sched : List Bool) :
    (sysRun sched).log.filterMap evDisp =
        (List.range (sysRun sched).dispN).reverse ∧
      (sysRun sched).log.filterMap evPub =
        ((List.range (sysRun sched).pubN).map (· + 1)).reverse ∧
      (sysRun sched).dispN ≤ (sysRun sched).pubN ∧
      (sysRun sched).pubN ≤ (sysRun sched).swapN + 1 := by
  have h := inv_sysRun sched
  refine ⟨h.dispLog, h.pubLog, ?_, ?_⟩
  · have hyb := h.readyBal
    omega
  · have hrb := h.reqBal
    have h1 := bn_le_one (¬((sysRun sched).c = CPC.cStart ∨ (sysRun sched).c = CPC.cSend))
    omega

/-- C9: the consumer emits exactly one request token at startup before
entering its loop (after its first step the request channel holds one token
and it sits at its loop head); given that token the system displays a frame
(a concrete seven-step interleaving reaches one display); and there is no
deadlock: in every reachable state some thread is enabled, and any
display-free execution has taken at most 7 actual steps, so every
continuing execution displays a frame. -/
theorem c9_startup_liveness :
    (∀ sched, pEnabled (sysRun sched) ∨ cEnabled (sysRun sched)) ∧
      (sysRun [false]).req = 1 ∧
      (sysRun [false, true, true, true, true, false, false]).dispN = 1 ∧
      (∀ sched, (sysRun sched).dispN = 0 →
        (sysRun sched).pSteps + (sysRun sched).cSteps ≤ 7) := by
  refine ⟨?_, by decide, by decide, ?_⟩
  · intro sched
    by_cases hp : (sysRun sched).p = PPC.pRecv
    · by_cases hr : 0 < (sysRun sched).req
      · exact Or.inl (Or.inr hr)
      · by_cases hc : (sysRun sched).c = CPC.cRecv
        · by_cases hy : 0 < (sysRun sched).ready
          · exact Or.inr (Or.inr hy)
          · exfalso
            have hb := (inv_sysRun sched).baton
            rw [hp, hc] at hb
            simp [bn_pos_eq, bn_neg_eq] at hb
            omega
        · exact Or.inr (Or.inl hc)
    · exact Or.inl (Or.inl hp)
  · intro sched h0
    exact inv_dispN_zero_steps (sysRun sched) (inv_sysRun sched) h0

/-- Witness for C9's display-free step bound at the empty schedule. -/
theorem c9_witness :
    (sysRun []).dispN = 0 ∧
      (sysRun []).pSteps + (sysRun []).cSteps ≤ 7 :=
  ⟨by decide, c9_startup_liveness.2.2.2 [] (by decide)⟩

/-- C10: in every interleaving the newest-first display log equals
`[dispN-1, …, 1, 0]`: the k-th display event writes frame k-1, one hand-off
behind the producer (the frame published during consumer iteration N becomes
`front` only at that iteration's swap, after the display, and is written in
iteration N+1); in particular the very first frame written to the terminal
is frame 0 — the initial front buffer allocated by `DoubleBuffer::new`,
whose `data` vector is empty — not the first encoded image. -/
theorem c10_display_lag (sched : List Bool) :
    (sysRun sched).log.filterMap evDisp =
        (List.range (sysRun sched).dispN).reverse ∧
      (0 < (sysRun sched).dispN →
        ((sysRun sched).log.filterMap evDisp).getLast? = some 0) := by
  have h := inv_sysRun sched
  refine ⟨h.dispLog, ?_⟩
  intro hpos
  rw [h.dispLog, List.getLast?_reverse]
  cases hd : (sysRun sched).dispN with
  | zero => omega
  | succ n => simp [List.range_succ_eq_map]

/-- Witness for C10 at a concrete schedule that reaches the first display:
the first (and only) display event writes frame 0, the empty startup
buffer. -/
theorem c10_witness :
    0 < (sysRun [false, true, true, true, true, false, false]).dispN ∧
      ((sysRun [false, true, true, true, true, false, false]).log.filterMap
          evDisp).getLast? = some 0 :=
  ⟨by decide,
    (c10_display_lag [false, true, true, true, true, false, false]).2 (by decide)⟩

end AsciiArt
